import Mathlib

/-!
Shallow embedding of the svlmd-rust changelog tool.

Strings from the Rust source are modelled as lists of characters
(`Str`); `u8` counters are modelled as `Nat` with explicit `% 256`
where the Rust code truncates.  Rust panics (out-of-bounds
`Vec::insert`, slice ranges with `start > end`) are modelled by
`Option`: a `none` result marks a panic of the original program.
-/

namespace Svlmd

/-- Strings are modelled as lists of characters. -/
abbrev Str := List Char

/-- Conversion from Lean string literals to the `Str` model. -/
def s2l (s : String) : Str := s.data

/-- A contents entry of a `LogseqPage`: the line text and its indent level
(`u8` in the source, always produced in `0..=255`). -/
abbrev Entry := Str × Nat

/-- Embedding of `LogseqPage` (src/file_manager.rs, lines 20-27). -/
structure LogseqPage where
  title : Str
  properties : List (Str × Str)
  contents : List Entry
deriving DecidableEq

/-- The three lists returned by `FileManager::get_changed_pages`:
added, modified and deleted page identifiers. -/
structure ChangeSet where
  added : List Str
  modified : List Str
  deleted : List Str
deriving DecidableEq

/-! ### Sorting and deduplication (Rust `Vec::sort` / `Vec::dedup`) -/

/-- Lexicographic comparison of strings by code point, matching the byte
order Rust uses to `sort` a `Vec of String` (UTF-8 byte order coincides
with code-point order). -/
def strLe : Str → Str → Bool
  | [], _ => true
  | _ :: _, [] => false
  | x :: xs, y :: ys =>
    if x.val < y.val then true
    else if y.val < x.val then false
    else strLe xs ys

/-- Insert into a `strLe`-sorted list, keeping order. -/
def orderedInsertStr (a : Str) : List Str → List Str
  | [] => [a]
  | b :: bs => if strLe a b then a :: b :: bs else b :: orderedInsertStr a bs

/-- Sorting by `strLe`; since `strLe` is a total antisymmetric order, the
result coincides with the output of Rust's stable `sort`. -/
def insSortStr : List Str → List Str
  | [] => []
  | a :: as => orderedInsertStr a (insSortStr as)

/-- Removal of consecutive duplicates, as Rust `Vec::dedup`. -/
def dedupAdj : List Str → List Str
  | [] => []
  | [a] => [a]
  | a :: b :: rest =>
    if a = b then dedupAdj (b :: rest) else a :: dedupAdj (b :: rest)

/-- The `sort(); dedup();` combination applied to every merged category in
`sync_version` (src/main.rs lines 224-225, 254-255, 284-285). -/
def sortDedup (l : List Str) : List Str := dedupAdj (insSortStr l)

/-! ### The reconciler of `sync_version` (src/main.rs lines 154-300) -/

/-- Rendered heading of the current version:
`format!("## [[{}]]", version)` (src/main.rs line 155). -/
def fullVersionString (ver : Str) : Str := s2l "## [[" ++ ver ++ s2l "]]"

/-- Index of the `"# Changed Pages"` marker, `0` when absent
(src/main.rs lines 158-162). -/
def changedPagesIndex (contents : List Entry) : Nat :=
  (contents.findIdx? (fun e => decide (e.1 = s2l "# Changed Pages"))).getD 0

/-- Predicate for a per-version heading: text starting with `"## [["` at
indent 1 (src/main.rs lines 167 and 176). -/
def isVersionHeading (e : Entry) : Bool :=
  (s2l "## [[").isPrefixOf e.1 && decide (e.2 = 1)

/-- First per-version heading at or after the section marker
(src/main.rs lines 165-168). -/
def latestVersionIndex (contents : List Entry) (cpi : Nat) : Option Nat :=
  ((contents.drop cpi).findIdx? isVersionHeading).map (· + cpi)

/-- End of the extent of the heading at `idx`: the next per-version heading
strictly after it, or the length of contents (src/main.rs lines 174-178). -/
def nextVersionIndex (contents : List Entry) (idx : Nat) : Nat :=
  (((contents.drop (idx + 1)).findIdx? isVersionHeading).map (· + idx + 1)).getD
    contents.length

/-- Predicate selecting carried-over change lines: text starting with
`"### "` or `"[["` (src/main.rs line 184). -/
def isChangeLine (e : Entry) : Bool :=
  (s2l "### ").isPrefixOf e.1 || (s2l "[[").isPrefixOf e.1

/-- The range drained from contents: present exactly when the first
per-version heading at or after the marker equals the current version's
rendered heading (src/main.rs lines 173-190). -/
def drainedRange (contents : List Entry) (ver : Str) : Option (Nat × Nat) :=
  let cpi := changedPagesIndex contents
  match latestVersionIndex contents cpi with
  | none => none
  | some idx =>
    if (contents.getD idx ([], 0)).1 = fullVersionString ver then
      some (idx, nextVersionIndex contents idx)
    else none

/-- The `existing_changes` vector accumulated from the matched version
entry (src/main.rs lines 182-187). -/
def existingChanges (contents : List Entry) (ver : Str) : List Entry :=
  match drainedRange contents ver with
  | some (idx, nvi) => ((contents.drop idx).take (nvi - idx)).filter isChangeLine
  | none => []

/-- Contents after `drain(idx..next_version_index)` (src/main.rs line 189). -/
def keptContents (contents : List Entry) (ver : Str) : List Entry :=
  match drainedRange contents ver with
  | some (idx, nvi) => contents.take idx ++ contents.drop nvi
  | none => contents

/-- The indent-3 `"[["`-prefixed lines of `existing_changes`, the items
surviving the first `filter` of each category (src/main.rs line 201 etc.). -/
def ecLeaves (ec : List Entry) : List Entry :=
  ec.filter (fun e => decide (e.2 = 3) && (s2l "[[").isPrefixOf e.1)

/-- Position of an indent-2 subsection header with the given text
(src/main.rs lines 203-213 etc.). -/
def hdrIdx (ec : List Entry) (name : Str) : Option Nat :=
  ec.findIdx? (fun e => decide (e.2 = 2) && decide (e.1 = name))

/-- Position of the first collected line at indent 1, the fallback section
end used for Modified and Deleted (src/main.rs lines 243 and 271-272). -/
def indentOneIdx (ec : List Entry) : Option Nat :=
  ec.findIdx? (fun e => decide (e.2 = 1))

/-- Carried-over entries of one category: the indent-3 `"[["` lines whose
text occurs in `ec` sliced between `ss` and `se`.  When either bound is
missing the filter closure returns `false` for every item; when the bounds
are inverted and at least one item is examined, the Rust slice
`existing_changes[start..end]` panics, modelled by `none`
(src/main.rs lines 199-221, 233-251, 263-281). -/
def carriedCat (ec : List Entry) (ss se : Option Nat) : Option (List Str) :=
  if ecLeaves ec = [] then some []
  else
    match ss with
    | none => some []
    | some s =>
      match se with
      | none => some []
      | some e =>
        if s ≤ e then
          some (((ecLeaves ec).filter
            (fun leaf => ((ec.drop s).take (e - s)).any
              (fun x => decide (x.1 = leaf.1)))).map (·.1))
        else none

/-- Carried-over Added entries: section start is the first `"### Added"`
header, section end the first `"### Modified"` header or, failing that,
the first `"### Deleted"` header (src/main.rs lines 199-221). -/
def carriedAdded (ec : List Entry) : Option (List Str) :=
  carriedCat ec (hdrIdx ec (s2l "### Added"))
    ((hdrIdx ec (s2l "### Modified")).orElse fun _ =>
      hdrIdx ec (s2l "### Deleted"))

/-- Carried-over Modified entries: section start is the first
`"### Modified"` header, section end the first `"### Deleted"` header or,
failing that, the first collected indent-1 line (src/main.rs lines 233-251). -/
def carriedModified (ec : List Entry) : Option (List Str) :=
  carriedCat ec (hdrIdx ec (s2l "### Modified"))
    ((hdrIdx ec (s2l "### Deleted")).orElse fun _ => indentOneIdx ec)

/-- Carried-over Deleted entries: section start is the first
`"### Deleted"` header, section end the first collected indent-1 line or
the length of `existing_changes` (src/main.rs lines 263-281). -/
def carriedDeleted (ec : List Entry) : Option (List Str) :=
  carriedCat ec (hdrIdx ec (s2l "### Deleted"))
    (some ((indentOneIdx ec).getD ec.length))

/-- Wrapping of a change-set identifier: `format!("[[{}]]", p)`
(src/main.rs lines 223, 253, 283). -/
def wrap (p : Str) : Str := s2l "[[" ++ p ++ s2l "]]"

/-- One rendered category block: nothing when the merged list is empty,
otherwise the `"### <Category>"` header at indent 2 followed by the merged
entries at indent 3 (src/main.rs lines 227-230, 257-260, 287-290). -/
def catBlock (name : Str) (xs : List Str) : List Entry :=
  if xs = [] then [] else (name, 2) :: xs.map (fun s => (s, 3))

/-- The `all_changes` vector: empty when the change-set is entirely empty
(src/main.rs line 197), otherwise the three category blocks, each merged
by sort-and-dedup of carried-over and wrapped new entries
(src/main.rs lines 194-291). -/
def allChanges (ec : List Entry) (cs : ChangeSet) : Option (List Entry) :=
  if cs.added = [] ∧ cs.modified = [] ∧ cs.deleted = [] then some []
  else
    match carriedAdded ec, carriedModified ec, carriedDeleted ec with
    | some ca, some cm, some cd =>
      some (catBlock (s2l "### Added") (sortDedup (ca ++ cs.added.map wrap)) ++
        catBlock (s2l "### Modified") (sortDedup (cm ++ cs.modified.map wrap)) ++
        catBlock (s2l "### Deleted") (sortDedup (cd ++ cs.deleted.map wrap)))
    | _, _, _ => none

/-- Rust `Vec::insert`: panics (modelled by `none`) when the index exceeds
the current length. -/
def insertAt (xs : List Entry) (i : Nat) (a : Entry) : Option (List Entry) :=
  if i ≤ xs.length then some (xs.take i ++ a :: xs.drop i) else none

/-- The insertion loop `for entry in new_entries.into_iter().rev()`
(src/main.rs lines 297-300): the argument list is already reversed. -/
def insertRevLoop (i : Nat) (xs : List Entry) : List Entry → Option (List Entry)
  | [] => some xs
  | y :: ys =>
    match insertAt xs i y with
    | none => none
    | some xs' => insertRevLoop i xs' ys

/-- The reconciler core of `sync_version` (src/main.rs lines 154-300) as a
function on the contents sequence.  `none` marks a panic of the source. -/
def syncContents (contents : List Entry) (ver : Str) (cs : ChangeSet) :
    Option (List Entry) :=
  match allChanges (existingChanges contents ver) cs with
  | none => none
  | some block =>
    insertRevLoop (changedPagesIndex contents + 1) (keptContents contents ver)
      ((fullVersionString ver, 1) :: block).reverse

/-- The reconciler acting on a whole page: only the `contents` field is
replaced, `title` and `properties` are reused unchanged
(src/main.rs lines 154, 296-303). -/
def syncPage (p : LogseqPage) (ver : Str) (cs : ChangeSet) : Option LogseqPage :=
  (syncContents p.contents ver cs).map fun c =>
    { title := p.title, properties := p.properties, contents := c }

/-! ### The page format of `file_manager.rs` -/

/-- Unicode White_Space characters, the set stripped by Rust `str::trim`. -/
def rustIsWhitespace (c : Char) : Bool :=
  (0x09 ≤ c.toNat && c.toNat ≤ 0x0D) || c.toNat = 0x20 || c.toNat = 0x85 ||
  c.toNat = 0xA0 || c.toNat = 0x1680 ||
  (0x2000 ≤ c.toNat && c.toNat ≤ 0x200A) || c.toNat = 0x2028 ||
  c.toNat = 0x2029 || c.toNat = 0x202F || c.toNat = 0x205F || c.toNat = 0x3000

/-- Rust `str::trim`: strip whitespace from both ends. -/
def trim (s : Str) : Str :=
  ((s.dropWhile rustIsWhitespace).reverse.dropWhile rustIsWhitespace).reverse

/-- Rust `str::replacen(pat, "", 1)`: remove the leftmost occurrence of
`pat`, if any (src/file_manager.rs line 58). -/
def replaceFirst (pat : Str) : Str → Str
  | [] => []
  | c :: rest =>
    if pat.isPrefixOf (c :: rest) then (c :: rest).drop pat.length
    else c :: replaceFirst pat rest

/-- Rust `str::contains(pat)` for a string pattern. -/
def containsSub (pat : Str) : Str → Bool
  | [] => pat.isPrefixOf []
  | c :: rest => pat.isPrefixOf (c :: rest) || containsSub pat rest

/-- Worker for Rust `str::split`: structural recursion on a fuel that
starts at the length of the string and never runs out while it bounds
that length.  An empty pattern is treated as never matching (the source
only splits on `"::"`). -/
def splitOnStrGo (pat : Str) : Nat → Str → List Str
  | _, [] => [[]]
  | 0, s => [s]
  | fuel + 1, c :: rest =>
    if pat.isPrefixOf (c :: rest) ∧ pat ≠ [] then
      [] :: splitOnStrGo pat fuel ((c :: rest).drop pat.length)
    else
      match splitOnStrGo pat fuel rest with
      | [] => [[c]]
      | l :: ls => (c :: l) :: ls

/-- Rust `str::split(pat)` for a non-empty string pattern. -/
def splitOnStr (pat : Str) (s : Str) : List Str := splitOnStrGo pat s.length s

/-- Fields of a text split at every newline character. -/
def splitNLFields : Str → List Str
  | [] => [[]]
  | c :: rest =>
    if c = '\n' then [] :: splitNLFields rest
    else
      match splitNLFields rest with
      | [] => [[c]]
      | l :: ls => (c :: l) :: ls

/-- Removal of one trailing carriage return, as Rust line iterators do. -/
def stripCR (l : Str) : Str := if l.getLast? = some '\r' then l.dropLast else l

/-- Rust `str::lines` (also the behaviour of `BufRead::lines`): split at
newlines, drop a final empty field, strip one trailing `CR` per line. -/
def rustLines (s : Str) : List Str :=
  let fs := splitNLFields s
  (if fs.getLast? = some [] then fs.dropLast else fs).map stripCR

/-- Indentation of a line: leading spaces counted into a `u8` (hence the
`% 256`), divided by 4 (src/file_manager.rs lines 50-53). -/
def countIndentation (line : Str) : Nat :=
  (line.takeWhile (fun c => decide (c = ' '))).length % 256 / 4

/-- The parse of one plain line in `LogseqPage::from_plain`
(src/file_manager.rs lines 56-61): trim, remove the first `"- "`, pair
with the indentation of the original line. -/
def parsePlainLine (line : Str) : Entry :=
  (replaceFirst (s2l "- ") (trim line), countIndentation line)

/-- The contents parser of `LogseqPage::from_plain`
(src/file_manager.rs lines 54-62). -/
def fromOutlineText (text : Str) : List Entry :=
  (rustLines text).map parsePlainLine

/-- Embedding of `LogseqPage::from_plain` (src/file_manager.rs lines 49-68). -/
def from_plain (title : Str) (properties : List (Str × Str)) (contents : Str) :
    LogseqPage :=
  ⟨title, properties, fromOutlineText contents⟩

/-- Rendering of one contents entry in `LogseqPage::write_page`
(src/file_manager.rs lines 88-100): a bare line for empty content,
otherwise `4 * indent` spaces, `"- "` and the content. -/
def renderEntry (e : Entry) : Str :=
  if e.1 = [] then [] else List.replicate (4 * e.2) ' ' ++ s2l "- " ++ e.1

/-- The contents block written by `LogseqPage::write_page`, each line
terminated by a newline. -/
def toOutlineText (cs : List Entry) : Str :=
  (cs.map (fun e => renderEntry e ++ ['\n'])).flatten

/-- One property header line: `writeln!(file, "{}:: {}", key, value)`
(src/file_manager.rs lines 83-85). -/
def propLine (kv : Str × Str) : Str := kv.1 ++ s2l ":: " ++ kv.2

/-- Embedding of `LogseqPage::write_page` as the produced file text
(src/file_manager.rs lines 76-103): property lines, one blank line, then
the contents block. -/
def write_page (p : LogseqPage) : Str :=
  (p.properties.map (fun kv => propLine kv ++ ['\n'])).flatten ++
    '\n' :: toOutlineText p.contents

/-- The `properties_end` position of `LogseqPage::read_page`: index of the
first line without a `"::"`, defaulting to 0 (src/file_manager.rs
lines 115-118). -/
def propertiesEnd (ls : List Str) : Nat :=
  (ls.findIdx? (fun l => !containsSub (s2l "::") l)).getD 0

/-- The parse of one property header line in `LogseqPage::read_page`
(src/file_manager.rs lines 122-125): split at `"::"`, keep the first part
and the trimmed second part. -/
def parsePropLine (l : Str) : Str × Str :=
  let parts := splitOnStr (s2l "::") l
  (parts.headD [], trim (parts.getD 1 []))

/-- The properties recovered by `LogseqPage::read_page`
(src/file_manager.rs lines 120-126). -/
def readProps (ls : List Str) : List (Str × Str) :=
  (ls.take (propertiesEnd ls)).map parsePropLine

/-- Embedding of `LogseqPage::read_page` on a given file text
(src/file_manager.rs lines 110-131). -/
def read_page (title : Str) (fileText : Str) : LogseqPage :=
  let ls := rustLines fileText
  from_plain title (readProps ls)
    (List.intercalate ['\n'] (ls.drop (propertiesEnd ls)))

/-! ### Extraction functions following the specification's wording

The next definitions formalise the way the specification reads a version
entry: a category's extent starts after its `"### <Category>"` header at
indent 2 and ends at the next later category header or at the end of the
entry; its entries are the indent-3 `"[["`-prefixed lines in that extent.
They are used to compare the reconciler's output against the claimed
merge. -/

/-- Lines after the first indent-2 header with the given text; empty when
no such header exists. -/
def afterHeader (hdr : Str) : List Entry → List Entry
  | [] => []
  | e :: rest => if e.2 = 2 ∧ e.1 = hdr then rest else afterHeader hdr rest

/-- Lines up to the first indent-2 header among `enders`. -/
def extentUntil (enders : List Str) (l : List Entry) : List Entry :=
  l.takeWhile fun e => !(decide (e.2 = 2) && decide (e.1 ∈ enders))

/-- The entries of one category of a version entry, per the
specification's reading. -/
def catLeaves (block : List Entry) (hdr : Str) (enders : List Str) : List Str :=
  ((extentUntil enders (afterHeader hdr block)).filter
    (fun e => decide (e.2 = 3) && (s2l "[[").isPrefixOf e.1)).map (·.1)

/-- The lines of the version entry for `ver` per the specification's
reading: after an indent-1 line equal to the rendered heading, up to the
next indent-1 `"## "` line or the end of contents. -/
def specVersionEntryBlock (contents : List Entry) (ver : Str) : List Entry :=
  match contents.findIdx?
      (fun e => decide (e.1 = fullVersionString ver) && decide (e.2 = 1)) with
  | none => []
  | some i => (contents.drop (i + 1)).takeWhile
      (fun e => !((s2l "## ").isPrefixOf e.1 && decide (e.2 = 1)))

/-- The Added entries of the version entry for `ver`, per the
specification's reading. -/
def specAddedEntries (contents : List Entry) (ver : Str) : List Str :=
  catLeaves (specVersionEntryBlock contents ver) (s2l "### Added")
    [s2l "### Modified", s2l "### Deleted"]

/-! ### Hypothesis predicates for the amended round-trip claims -/

/-- A contents entry whose rendering is parse-stable: no newline in the
content, no trailing whitespace, and an indent small enough for the `u8`
space counter (empty contents render as a bare newline and need no indent
bound). -/
def stableEntry (e : Entry) : Prop :=
  '\n' ∉ e.1 ∧ (e.1.getLast?.all fun x => !rustIsWhitespace x) = true ∧
    (e.1 = [] ∨ e.2 < 64)

/-- A property key whose header line splits back at the written `"::"`:
no newline, and `key ++ ":"` contains no `"::"` (so the key neither
contains `"::"` nor ends with a colon). -/
def cleanKey (k : Str) : Prop :=
  '\n' ∉ k ∧ containsSub (s2l "::") (k ++ [':']) = false

/-- A property value that survives the read-back: no newline, no `"::"`,
and no leading or trailing whitespace. -/
def stableValue (v : Str) : Prop :=
  '\n' ∉ v ∧ containsSub (s2l "::") v = false ∧
    (v.head?.all fun x => !rustIsWhitespace x) = true ∧
    (v.getLast?.all fun x => !rustIsWhitespace x) = true

instance (e : Entry) : Decidable (stableEntry e) := by
  unfold stableEntry
  infer_instance

instance (k : Str) : Decidable (cleanKey k) := by
  unfold cleanKey
  infer_instance

instance (v : Str) : Decidable (stableValue v) := by
  unfold stableValue
  infer_instance

/-! ### Concrete inputs used by counterexamples and witnesses -/

/-- A page whose version entry carries one Added record and an empty
Modified header. -/
def pageWithModifiedHeader : List Entry :=
  [(s2l "# Changed Pages", 0), (s2l "## [[1.0.0]]", 1),
   (s2l "### Added", 2), (s2l "[[Alice]]", 3), (s2l "### Modified", 2)]

/-- A page whose version entry carries one Added record and no later
category header. -/
def pageAddedOnly : List Entry :=
  [(s2l "# Changed Pages", 0), (s2l "## [[1.0.0]]", 1),
   (s2l "### Added", 2), (s2l "[[Alice]]", 3)]

/-- A page where another version's entry precedes the current version's
entry inside the section. -/
def pageTwoVersions : List Entry :=
  [(s2l "# Changed Pages", 0), (s2l "## [[2.0.0]]", 1),
   (s2l "## [[1.0.0]]", 1), (s2l "### Added", 2), (s2l "[[Alice]]", 3)]

/-- The change-set adding the single page `Bob`. -/
def csBob : ChangeSet := ⟨[s2l "Bob"], [], []⟩

/-! ### Structural lemmas about the reconciler -/

theorem insertRevLoop_eq (ys : List Entry) (i : Nat) (xs : List Entry)
    (h : i ≤ xs.length) :
    insertRevLoop i xs ys = some (xs.take i ++ ys.reverse ++ xs.drop i) := by
  induction ys generalizing xs with
  | nil => simp [insertRevLoop]
  | cons y ys ih =>
    have hins : insertAt xs i y = some (xs.take i ++ y :: xs.drop i) := by
      simp [insertAt, h]
    have hlt : (xs.take i).length = i := by
      simp [List.length_take]; omega
    have hlen : i ≤ (xs.take i ++ y :: xs.drop i).length := by
      simp; omega
    rw [insertRevLoop]
    rw [hins]
    show insertRevLoop i (xs.take i ++ y :: xs.drop i) ys = _
    rw [ih _ hlen, List.take_left' hlt, List.drop_left' hlt]
    simp

theorem insertRevLoop_fail (y : Entry) (ys : List Entry) (i : Nat)
    (xs : List Entry) (h : xs.length < i) :
    insertRevLoop i xs (y :: ys) = none := by
  rw [insertRevLoop]
  have hnone : insertAt xs i y = none := by
    unfold insertAt
    rw [if_neg (not_le.mpr h)]
  rw [hnone]

theorem sync_decomp (c : List Entry) (ver : Str) (cs : ChangeSet)
    (out : List Entry) (h : syncContents c ver cs = some out) :
    ∃ block, allChanges (existingChanges c ver) cs = some block ∧
      changedPagesIndex c + 1 ≤ (keptContents c ver).length ∧
      out = (keptContents c ver).take (changedPagesIndex c + 1) ++
        (fullVersionString ver, 1) :: block ++
        (keptContents c ver).drop (changedPagesIndex c + 1) := by
  unfold syncContents at h
  cases hac : allChanges (existingChanges c ver) cs with
  | none => rw [hac] at h; simp at h
  | some block =>
    rw [hac] at h
    have h2 : insertRevLoop (changedPagesIndex c + 1) (keptContents c ver)
        ((fullVersionString ver, 1) :: block).reverse = some out := h
    by_cases hle : changedPagesIndex c + 1 ≤ (keptContents c ver).length
    · refine ⟨block, rfl, hle, ?_⟩
      rw [insertRevLoop_eq _ _ _ hle, List.reverse_reverse] at h2
      simp only [Option.some.injEq] at h2
      exact h2.symm
    · exfalso
      cases hrev : ((fullVersionString ver, 1) :: block).reverse with
      | nil => simp at hrev
      | cons y ys =>
        rw [hrev, insertRevLoop_fail y ys _ _ (by omega)] at h2
        exact Option.noConfusion h2

/-! ### Membership lemmas for the merge -/

theorem mem_orderedInsertStr (x a : Str) (l : List Str)
    (h : x ∈ orderedInsertStr a l) : x = a ∨ x ∈ l := by
  induction l with
  | nil => simp_all [orderedInsertStr]
  | cons b bs ih =>
    rw [orderedInsertStr] at h
    split at h
    · rcases List.mem_cons.mp h with h | h
      · exact Or.inl h
      · exact Or.inr h
    · rcases List.mem_cons.mp h with h | h
      · exact Or.inr (by simp [h])
      · rcases ih h with h' | h'
        · exact Or.inl h'
        · exact Or.inr (List.mem_cons_of_mem _ h')

theorem mem_insSortStr (x : Str) (l : List Str) (h : x ∈ insSortStr l) :
    x ∈ l := by
  induction l with
  | nil => simp_all [insSortStr]
  | cons a as ih =>
    rw [insSortStr] at h
    rcases mem_orderedInsertStr x a _ h with h' | h'
    · simp [h']
    · exact List.mem_cons_of_mem _ (ih h')

theorem mem_dedupAdj (x : Str) (l : List Str) (h : x ∈ dedupAdj l) : x ∈ l := by
  induction l with
  | nil => simp_all [dedupAdj]
  | cons a as ih =>
    cases as with
    | nil => simp_all [dedupAdj]
    | cons b bs =>
      rw [dedupAdj] at h
      split at h
      · exact List.mem_cons_of_mem _ (ih h)
      · rcases List.mem_cons.mp h with h | h
        · simp [h]
        · exact List.mem_cons_of_mem _ (ih h)

theorem mem_sortDedup (x : Str) (l : List Str) (h : x ∈ sortDedup l) : x ∈ l :=
  mem_insSortStr x l (mem_dedupAdj x _ h)

theorem isPrefixOf_self_append (l t : Str) : l.isPrefixOf (l ++ t) = true :=
  List.isPrefixOf_iff_prefix.mpr (List.prefix_append l t)

theorem wrap_has_brackets (p : Str) : (s2l "[[").isPrefixOf (wrap p) = true := by
  rw [wrap, List.append_assoc]
  exact isPrefixOf_self_append _ _

theorem carriedCat_none_left (ec : List Entry) (se : Option Nat) :
    carriedCat ec none se = some [] := by
  unfold carriedCat
  split <;> rfl

theorem carriedCat_some_none (ec : List Entry) (s : Nat) :
    carriedCat ec (some s) none = some [] := by
  unfold carriedCat
  split <;> rfl

theorem carriedCat_some_some (ec : List Entry) (s e : Nat) :
    carriedCat ec (some s) (some e) =
      if ecLeaves ec = [] then some []
      else if s ≤ e then
        some (((ecLeaves ec).filter
          (fun leaf => ((ec.drop s).take (e - s)).any
            (fun x => decide (x.1 = leaf.1)))).map (·.1))
      else none := by
  unfold carriedCat
  split <;> rfl

theorem carriedCat_brackets (ec : List Entry) (ss se : Option Nat)
    (l : List Str) (h : carriedCat ec ss se = some l) (x : Str) (hx : x ∈ l) :
    (s2l "[[").isPrefixOf x = true := by
  rcases ss with _ | s
  · rw [carriedCat_none_left] at h
    simp only [Option.some.injEq] at h
    rw [← h] at hx
    simp at hx
  rcases se with _ | e
  · rw [carriedCat_some_none] at h
    simp only [Option.some.injEq] at h
    rw [← h] at hx
    simp at hx
  rw [carriedCat_some_some] at h
  by_cases h0 : ecLeaves ec = []
  · rw [if_pos h0] at h
    simp only [Option.some.injEq] at h
    rw [← h] at hx
    simp at hx
  · rw [if_neg h0] at h
    split at h
    · simp only [Option.some.injEq] at h
      rw [← h] at hx
      simp only [List.mem_map] at hx
      obtain ⟨leaf, hmem, hfst⟩ := hx
      have hleaf : leaf ∈ ecLeaves ec := List.mem_of_mem_filter hmem
      have hpred := List.of_mem_filter hleaf
      simp only [Bool.and_eq_true] at hpred
      rw [← hfst]
      exact hpred.2
    · exact Option.noConfusion h

theorem sortDedup_merge_brackets (ca : List Str) (newIds : List Str)
    (hca : ∀ x ∈ ca, (s2l "[[").isPrefixOf x = true) (x : Str)
    (hx : x ∈ sortDedup (ca ++ newIds.map wrap)) :
    (s2l "[[").isPrefixOf x = true := by
  rcases List.mem_append.mp (mem_sortDedup x _ hx) with h | h
  · exact hca x h
  · obtain ⟨p, _, hp⟩ := List.mem_map.mp h
    rw [← hp]
    exact wrap_has_brackets p

/-! ### Parsing the assembled category blocks -/

theorem afterHeader_nil (hdr : Str) : afterHeader hdr [] = [] := rfl

theorem afterHeader_cons_self (hdr : Str) (l : List Entry) :
    afterHeader hdr ((hdr, 2) :: l) = l := by
  rw [afterHeader, if_pos ⟨rfl, rfl⟩]

theorem afterHeader_append_none (hdr : Str) (pre l : List Entry)
    (h : ∀ x ∈ pre, ¬(x.2 = 2 ∧ x.1 = hdr)) :
    afterHeader hdr (pre ++ l) = afterHeader hdr l := by
  induction pre with
  | nil => rfl
  | cons e es ih =>
    rw [List.cons_append, afterHeader, if_neg (h e (by simp))]
    exact ih fun x hx => h x (List.mem_cons_of_mem _ hx)

theorem extentUntil_nil (enders : List Str) : extentUntil enders [] = [] := rfl

theorem extentUntil_cons_stop (enders : List Str) (e : Entry) (l : List Entry)
    (h : e.2 = 2 ∧ e.1 ∈ enders) : extentUntil enders (e :: l) = [] := by
  have hx : (decide (e.2 = 2) && decide (e.1 ∈ enders)) = true := by
    simp [h.1, h.2]
  simp only [extentUntil, List.takeWhile_cons, hx]
  simp

theorem extentUntil_append_pass (enders : List Str) (pre l : List Entry)
    (h : ∀ x ∈ pre, ¬(x.2 = 2 ∧ x.1 ∈ enders)) :
    extentUntil enders (pre ++ l) = pre ++ extentUntil enders l := by
  induction pre with
  | nil => rfl
  | cons e es ih =>
    have he : ¬(e.2 = 2 ∧ e.1 ∈ enders) := h e (by simp)
    have hx : (decide (e.2 = 2) && decide (e.1 ∈ enders)) = false := by
      rcases not_and_or.mp he with hc | hc <;> simp [hc]
    have ih' := ih fun x hx => h x (List.mem_cons_of_mem _ hx)
    have hstep : extentUntil enders (e :: (es ++ l)) =
        e :: extentUntil enders (es ++ l) := by
      simp only [extentUntil, List.takeWhile_cons, hx]
      simp
    rw [List.cons_append, hstep, ih']
    rfl

theorem extentUntil_nil_enders (l : List Entry) : extentUntil [] l = l := by
  rw [extentUntil, List.takeWhile_eq_self_iff]
  intro x _
  simp

theorem catBlock_mem (name : Str) (xs : List Str) (x : Entry)
    (h : x ∈ catBlock name xs) : x = (name, 2) ∨ ∃ s ∈ xs, x = (s, 3) := by
  unfold catBlock at h
  by_cases h0 : xs = []
  · rw [if_pos h0] at h
    simp at h
  · rw [if_neg h0] at h
    rcases List.mem_cons.mp h with h | h
    · exact Or.inl h
    · obtain ⟨s, hs, hx⟩ := List.mem_map.mp h
      exact Or.inr ⟨s, hs, hx.symm⟩

theorem leaves_filter_map (xs : List Str)
    (h : ∀ x ∈ xs, (s2l "[[").isPrefixOf x = true) :
    (((xs.map fun s => ((s, 3) : Entry)).filter
      (fun e => decide (e.2 = 3) && (s2l "[[").isPrefixOf e.1)).map (·.1)) = xs := by
  rw [List.filter_map]
  have : (xs.filter ((fun e : Entry => decide (e.2 = 3) &&
      (s2l "[[").isPrefixOf e.1) ∘ fun s => ((s, 3) : Entry))) = xs := by
    rw [List.filter_eq_self]
    intro a ha
    simp [h a ha]
  rw [this, List.map_map]
  have hid : ((fun e : Entry => e.1) ∘ fun s : Str => ((s, 3) : Entry)) = id := rfl
  rw [hid, List.map_id]

theorem afterHeader_no_hit (hdr : Str) (l : List Entry)
    (h : ∀ x ∈ l, ¬(x.2 = 2 ∧ x.1 = hdr)) : afterHeader hdr l = [] := by
  induction l with
  | nil => rfl
  | cons e es ih =>
    rw [afterHeader, if_neg (h e (by simp))]
    exact ih fun x hx => h x (List.mem_cons_of_mem _ hx)

theorem catBlock_no_hdr (name hdr : Str) (xs : List Str) (hne : name ≠ hdr) :
    ∀ x ∈ catBlock name xs, ¬(x.2 = 2 ∧ x.1 = hdr) := by
  intro x hx
  rcases catBlock_mem _ _ _ hx with h | ⟨s, _, h⟩
  · subst h
    intro hcon
    exact hne hcon.2
  · subst h
    intro hcon
    exact (by norm_num : (3 : Nat) ≠ 2) hcon.1

theorem leaf_map_pass (P : Entry → Prop) (hP : ∀ e : Entry, e.2 = 3 → ¬P e)
    (xs : List Str) : ∀ x ∈ xs.map (fun s => ((s, 3) : Entry)), ¬P x := by
  intro x hx
  obtain ⟨s, _, hs⟩ := List.mem_map.mp hx
  exact hs ▸ hP (s, 3) rfl

theorem catBlock_cons (name : Str) (xs : List Str) (h : xs ≠ []) :
    catBlock name xs = (name, 2) :: xs.map (fun s => (s, 3)) := by
  unfold catBlock
  rw [if_neg h]

/-- Parsing the Added category back out of the assembled block. -/
theorem catLeaves_added (A M D : List Str)
    (hA : ∀ x ∈ A, (s2l "[[").isPrefixOf x = true) :
    catLeaves (catBlock (s2l "### Added") A ++ catBlock (s2l "### Modified") M ++
      catBlock (s2l "### Deleted") D) (s2l "### Added")
      [s2l "### Modified", s2l "### Deleted"] = A := by
  unfold catLeaves
  rw [List.append_assoc]
  have hstop : extentUntil [s2l "### Modified", s2l "### Deleted"]
      (catBlock (s2l "### Modified") M ++ catBlock (s2l "### Deleted") D) = [] := by
    by_cases hM0 : M = []
    · subst hM0
      rw [show catBlock (s2l "### Modified") [] = [] from rfl, List.nil_append]
      by_cases hD0 : D = []
      · subst hD0
        rfl
      · rw [catBlock_cons _ _ hD0]
        exact extentUntil_cons_stop _ _ _ ⟨rfl, by decide⟩
    · rw [catBlock_cons _ _ hM0, List.cons_append]
      exact extentUntil_cons_stop _ _ _ ⟨rfl, by decide⟩
  by_cases hA0 : A = []
  · subst hA0
    rw [show catBlock (s2l "### Added") [] = [] from rfl, List.nil_append]
    have h2 : afterHeader (s2l "### Added")
        (catBlock (s2l "### Modified") M ++ catBlock (s2l "### Deleted") D) = [] := by
      rw [afterHeader_append_none _ _ _ (catBlock_no_hdr _ _ _ (by decide))]
      exact afterHeader_no_hit _ _ (catBlock_no_hdr _ _ _ (by decide))
    rw [h2]
    rfl
  · rw [catBlock_cons _ _ hA0, List.cons_append,
      afterHeader_cons_self _ _,
      extentUntil_append_pass _ _ _
        (leaf_map_pass _ (by intro e h3 hcon; rw [h3] at hcon; norm_num at hcon) A),
      hstop, List.append_nil]
    exact leaves_filter_map A hA

/-- Parsing the Modified category back out of the assembled block. -/
theorem catLeaves_modified (A M D : List Str)
    (hM : ∀ x ∈ M, (s2l "[[").isPrefixOf x = true) :
    catLeaves (catBlock (s2l "### Added") A ++ catBlock (s2l "### Modified") M ++
      catBlock (s2l "### Deleted") D) (s2l "### Modified")
      [s2l "### Deleted"] = M := by
  unfold catLeaves
  rw [List.append_assoc,
    afterHeader_append_none _ _ _ (catBlock_no_hdr _ _ _ (by decide))]
  have hstop : extentUntil [s2l "### Deleted"]
      (catBlock (s2l "### Deleted") D) = [] := by
    by_cases hD0 : D = []
    · subst hD0
      rfl
    · rw [catBlock_cons _ _ hD0]
      exact extentUntil_cons_stop _ _ _ ⟨rfl, by decide⟩
  by_cases hM0 : M = []
  · subst hM0
    rw [show catBlock (s2l "### Modified") [] = [] from rfl, List.nil_append]
    rw [afterHeader_no_hit _ _ (catBlock_no_hdr _ _ _ (by decide))]
    rfl
  · rw [catBlock_cons _ _ hM0, List.cons_append,
      afterHeader_cons_self _ _,
      extentUntil_append_pass _ _ _
        (leaf_map_pass _ (by intro e h3 hcon; rw [h3] at hcon; norm_num at hcon) M),
      hstop, List.append_nil]
    exact leaves_filter_map M hM

/-- Parsing the Deleted category back out of the assembled block. -/
theorem catLeaves_deleted (A M D : List Str)
    (hD : ∀ x ∈ D, (s2l "[[").isPrefixOf x = true) :
    catLeaves (catBlock (s2l "### Added") A ++ catBlock (s2l "### Modified") M ++
      catBlock (s2l "### Deleted") D) (s2l "### Deleted") [] = D := by
  unfold catLeaves
  rw [List.append_assoc,
    afterHeader_append_none _ _ _ (catBlock_no_hdr _ _ _ (by decide)),
    afterHeader_append_none _ _ _ (catBlock_no_hdr _ _ _ (by decide))]
  by_cases hD0 : D = []
  · subst hD0
    rfl
  · rw [catBlock_cons _ _ hD0, afterHeader_cons_self _ _,
      extentUntil_nil_enders]
    exact leaves_filter_map D hD

/-! ### Lemmas about the line splitter and the outline renderer -/

theorem containsSub_nil (pat : Str) : containsSub pat [] = pat.isPrefixOf [] := rfl

theorem containsSub_cons (pat : Str) (c : Char) (rest : Str) :
    containsSub pat (c :: rest) =
      (pat.isPrefixOf (c :: rest) || containsSub pat rest) := rfl

theorem splitNLFields_ne_nil (s : Str) : splitNLFields s ≠ [] := by
  cases s with
  | nil => simp [splitNLFields]
  | cons c rest =>
    rw [splitNLFields]
    split
    · simp
    · split <;> simp

theorem splitNLFields_append (l rest : Str) (h : '\n' ∉ l) :
    splitNLFields (l ++ '\n' :: rest) = l :: splitNLFields rest := by
  induction l with
  | nil =>
    rw [List.nil_append, splitNLFields, if_pos rfl]
  | cons c cs ih =>
    have hc : ¬c = '\n' := fun hc => h (by simp [hc])
    rw [List.cons_append, splitNLFields, if_neg hc,
      ih fun hx => h (List.mem_cons_of_mem _ hx)]

theorem rustLines_nil : rustLines [] = [] := rfl

theorem rustLines_cons_line (l rest : Str) (h : '\n' ∉ l) :
    rustLines (l ++ '\n' :: rest) = stripCR l :: rustLines rest := by
  have key : ∀ F : List Str, F ≠ [] →
      List.map stripCR
        (if (l :: F).getLast? = some [] then (l :: F).dropLast else l :: F) =
      stripCR l ::
        List.map stripCR (if F.getLast? = some [] then F.dropLast else F) := by
    intro F hF
    cases F with
    | nil => exact absurd rfl hF
    | cons f fs =>
      rw [List.getLast?_cons_cons]
      by_cases hlast : (f :: fs).getLast? = some []
      · rw [if_pos hlast, if_pos hlast, List.dropLast_cons₂, List.map_cons]
      · rw [if_neg hlast, if_neg hlast, List.map_cons]
  unfold rustLines
  rw [splitNLFields_append l rest h]
  exact key (splitNLFields rest) (splitNLFields_ne_nil rest)

theorem toOutlineText_cons (e : Entry) (l : List Entry) :
    toOutlineText (e :: l) = renderEntry e ++ '\n' :: toOutlineText l := by
  simp [toOutlineText]

theorem renderEntry_no_newline (e : Entry) (h : '\n' ∉ e.1) :
    '\n' ∉ renderEntry e := by
  unfold renderEntry
  split
  · simp
  · intro hmem
    rcases List.mem_append.mp hmem with hm | hm
    · rcases List.mem_append.mp hm with hm' | hm'
      · exact absurd (List.eq_of_mem_replicate hm') (by decide)
      · revert hm'
        decide
    · exact h hm

theorem stripCR_renderEntry (e : Entry)
    (h : (e.1.getLast?.all fun x => !rustIsWhitespace x) = true) :
    stripCR (renderEntry e) = renderEntry e := by
  unfold renderEntry
  split
  · rfl
  · rename_i h0
    unfold stripCR
    rw [if_neg]
    intro hlast
    rw [List.getLast?_append] at hlast
    cases hl : e.1.getLast? with
    | none => exact h0 (List.getLast?_eq_none_iff.mp hl)
    | some x =>
      rw [hl] at hlast
      simp only [Option.or] at hlast
      have hx : x = '\r' := Option.some.inj hlast
      rw [hl, hx] at h
      simp only [Option.all_some] at h
      exact absurd h (by decide)

theorem dropWhile_head_false (p : Char → Bool) (l : Str)
    (h : ∀ c, l.head? = some c → p c = false) : l.dropWhile p = l := by
  cases l with
  | nil => rfl
  | cons c rest =>
    rw [List.dropWhile_cons, if_neg]
    rw [h c rfl]
    simp

theorem dropWhile_ws_spaces (n : Nat) (l : Str) :
    (List.replicate n ' ' ++ l).dropWhile rustIsWhitespace =
      l.dropWhile rustIsWhitespace := by
  induction n with
  | zero => rfl
  | succ n ih =>
    rw [List.replicate_succ, List.cons_append, List.dropWhile_cons,
      if_pos (by decide)]
    exact ih

theorem takeWhile_space_replicate (n : Nat) (l : Str)
    (hl : ∀ c, l.head? = some c → c ≠ ' ') :
    (List.replicate n ' ' ++ l).takeWhile (fun c => decide (c = ' ')) =
      List.replicate n ' ' := by
  induction n with
  | zero =>
    cases l with
    | nil => rfl
    | cons c rest =>
      rw [List.replicate_zero, List.nil_append, List.takeWhile_cons, if_neg]
      rw [decide_eq_true_eq]
      exact hl c rfl
  | succ n ih =>
    rw [List.replicate_succ, List.cons_append, List.takeWhile_cons,
      if_pos (by decide), ih]

theorem replaceFirst_of_head (pat t : Str) :
    replaceFirst pat (pat ++ t) = t := by
  cases pat with
  | nil =>
    cases t with
    | nil => rfl
    | cons c r => simp [replaceFirst, List.isPrefixOf]
  | cons p ps =>
    rw [List.cons_append, replaceFirst, if_pos]
    · rw [← List.cons_append]
      exact List.drop_left _ _
    · rw [← List.cons_append]
      exact isPrefixOf_self_append _ _

theorem trim_render_core (c : Str) (hc : c ≠ [])
    (hlast : (c.getLast?.all fun x => !rustIsWhitespace x) = true) (i : Nat) :
    trim (List.replicate (4 * i) ' ' ++ s2l "- " ++ c) = s2l "- " ++ c := by
  unfold trim
  rw [List.append_assoc, dropWhile_ws_spaces]
  have h1 : (s2l "- " ++ c).dropWhile rustIsWhitespace = s2l "- " ++ c := by
    apply dropWhile_head_false
    intro x hx
    have : x = '-' := by
      have : (s2l "- " ++ c).head? = some '-' := rfl
      rw [this] at hx
      exact (Option.some.inj hx).symm
    rw [this]
    decide
  rw [h1]
  have h2 : (s2l "- " ++ c).reverse.dropWhile rustIsWhitespace =
      (s2l "- " ++ c).reverse := by
    apply dropWhile_head_false
    intro x hx
    rw [List.head?_reverse, List.getLast?_append] at hx
    cases hl : c.getLast? with
    | none => exact absurd (List.getLast?_eq_none_iff.mp hl) hc
    | some y =>
      rw [hl] at hx
      simp only [Option.or] at hx
      have hxy : y = x := Option.some.inj hx
      rw [hl, hxy] at hlast
      simp only [Option.all_some] at hlast
      simpa using hlast
  rw [h2, List.reverse_reverse]

theorem countIndentation_render (c : Str) (hc : c ≠ []) (i : Nat)
    (hi : i < 64) :
    countIndentation (List.replicate (4 * i) ' ' ++ s2l "- " ++ c) = i := by
  unfold countIndentation
  rw [List.append_assoc, takeWhile_space_replicate]
  · rw [List.length_replicate, Nat.mod_eq_of_lt (by omega)]
    omega
  · intro x hx
    have : (s2l "- " ++ c).head? = some '-' := rfl
    rw [this] at hx
    rw [← Option.some.inj hx]
    decide

theorem parse_render (e : Entry) (hs : stableEntry e) :
    parsePlainLine (renderEntry e) =
      if e.1 = [] then (([], 0) : Entry) else e := by
  by_cases h0 : e.1 = []
  · rw [if_pos h0]
    unfold renderEntry
    rw [if_pos h0]
    rfl
  · rw [if_neg h0]
    unfold renderEntry
    rw [if_neg h0]
    unfold parsePlainLine
    have hi : e.2 < 64 := (hs.2.2).resolve_left h0
    rw [trim_render_core e.1 h0 hs.2.1 e.2, replaceFirst_of_head,
      countIndentation_render e.1 h0 e.2 hi]

theorem replaceFirst_split (pat : Str) (hpat : pat ≠ []) (s : Str) :
    (containsSub pat s = false ∧ replaceFirst pat s = s) ∨
    ∃ p q, s = p ++ pat ++ q ∧ replaceFirst pat s = p ++ q ∧
      containsSub pat p = false := by
  induction s with
  | nil =>
    left
    refine ⟨?_, rfl⟩
    cases pat with
    | nil => exact absurd rfl hpat
    | cons a as => rfl
  | cons c rest ih =>
    by_cases hpre : pat.isPrefixOf (c :: rest) = true
    · right
      obtain ⟨t, ht⟩ := List.isPrefixOf_iff_prefix.mp hpre
      refine ⟨[], t, ?_, ?_, ?_⟩
      · rw [List.nil_append, ← ht]
      · rw [replaceFirst, if_pos hpre, List.nil_append, ← ht, List.drop_left]
      · cases pat with
        | nil => exact absurd rfl hpat
        | cons a as => rfl
    · rw [replaceFirst, if_neg hpre]
      rcases ih with ⟨hns, hr⟩ | ⟨p, q, hs, hr, hp⟩
      · left
        refine ⟨?_, by rw [hr]⟩
        rw [containsSub_cons, hns, Bool.or_false]
        exact Bool.eq_false_iff.mpr hpre
      · right
        refine ⟨c :: p, q, ?_, ?_, ?_⟩
        · rw [hs]
          simp
        · rw [hr, List.cons_append]
        · rw [containsSub_cons, hp, Bool.or_false]
          by_contra hb
          have hb' : pat.isPrefixOf (c :: p) = true := by
            simpa using hb
          have hpref : pat <+: (c :: p) := List.isPrefixOf_iff_prefix.mp hb'
          have hfull : pat <+: (c :: rest) := by
            have hre : c :: rest = (c :: p) ++ (pat ++ q) := by
              rw [hs]
              simp
            rw [hre]
            exact hpref.trans (List.prefix_append _ _)
          exact hpre (List.isPrefixOf_iff_prefix.mpr hfull)

/-! ### Lemmas about the property header lines -/

theorem splitOnStrGo_nil (pat : Str) (f : Nat) : splitOnStrGo pat f [] = [[]] := by
  cases f <;> rfl

theorem splitOnStrGo_cons (pat : Str) (f : Nat) (c : Char) (rest : Str) :
    splitOnStrGo pat (f + 1) (c :: rest) =
      if pat.isPrefixOf (c :: rest) ∧ pat ≠ [] then
        [] :: splitOnStrGo pat f ((c :: rest).drop pat.length)
      else
        match splitOnStrGo pat f rest with
        | [] => [[c]]
        | l :: ls => (c :: l) :: ls := rfl

theorem splitOnStrGo_fuel (pat : Str) :
    ∀ (f1 : Nat) (s : Str) (f2 : Nat), s.length ≤ f1 → s.length ≤ f2 →
      splitOnStrGo pat f1 s = splitOnStrGo pat f2 s := by
  intro f1
  induction f1 with
  | zero =>
    intro s f2 h1 _
    have hs : s = [] := List.length_eq_zero.mp (Nat.le_zero.mp h1)
    subst hs
    rw [splitOnStrGo_nil, splitOnStrGo_nil]
  | succ f ih =>
    intro s f2 h1 h2
    cases s with
    | nil => rw [splitOnStrGo_nil, splitOnStrGo_nil]
    | cons c rest =>
      cases f2 with
      | zero => simp at h2
      | succ f2' =>
        rw [splitOnStrGo_cons, splitOnStrGo_cons]
        by_cases hcond : pat.isPrefixOf (c :: rest) = true ∧ pat ≠ []
        · rw [if_pos hcond, if_pos hcond]
          have hp : 0 < pat.length := List.length_pos.mpr hcond.2
          simp only [List.length_cons] at h1 h2
          have hl1 : ((c :: rest).drop pat.length).length ≤ f := by
            simp only [List.length_drop, List.length_cons]
            omega
          have hl2 : ((c :: rest).drop pat.length).length ≤ f2' := by
            simp only [List.length_drop, List.length_cons]
            omega
          rw [ih _ _ hl1 hl2]
        · rw [if_neg hcond, if_neg hcond]
          simp only [List.length_cons] at h1 h2
          rw [ih rest f2' (by omega) (by omega)]

theorem containsSub_of_head (pat s : Str) (h : pat.isPrefixOf s = true)
    (hp : pat ≠ []) : containsSub pat s = true := by
  cases s with
  | nil =>
    cases pat with
    | nil => exact absurd rfl hp
    | cons a as => exact Bool.noConfusion h
  | cons c rest => rw [containsSub_cons, h, Bool.true_or]

theorem containsSub_append_right (pat x : Str) {y : Str}
    (h : containsSub pat y = true) : containsSub pat (x ++ y) = true := by
  induction x with
  | nil => simpa
  | cons c xs ih => rw [List.cons_append, containsSub_cons, ih, Bool.or_true]

theorem containsSub_mid (pat x y : Str) (hp : pat ≠ []) :
    containsSub pat (x ++ (pat ++ y)) = true :=
  containsSub_append_right pat x
    (containsSub_of_head pat (pat ++ y) (isPrefixOf_self_append _ _) hp)

theorem splitOnStrGo_noMatch (pat : Str) (hp : pat ≠ []) :
    ∀ (f : Nat) (s : Str), s.length ≤ f → containsSub pat s = false →
      splitOnStrGo pat f s = [s] := by
  intro f
  induction f with
  | zero =>
    intro s h1 _
    have hs : s = [] := List.length_eq_zero.mp (Nat.le_zero.mp h1)
    subst hs
    rfl
  | succ f ih =>
    intro s h1 h2
    cases s with
    | nil => rfl
    | cons c rest =>
      rw [containsSub_cons] at h2
      obtain ⟨hpre, hrest⟩ := Bool.or_eq_false_iff.mp h2
      rw [splitOnStrGo_cons, if_neg]
      · simp only [List.length_cons] at h1
        rw [ih rest (by omega) hrest]
      · intro hcond
        rw [hcond.1] at hpre
        exact Bool.noConfusion hpre

theorem splitOnStrGo_sep : ∀ (w : Str) (f : Nat) (t : Str),
    (w ++ ':' :: ':' :: t).length ≤ f →
    containsSub (s2l "::") (w ++ [':']) = false →
    splitOnStrGo (s2l "::") f (w ++ ':' :: ':' :: t) =
      w :: splitOnStrGo (s2l "::") t.length t := by
  intro w
  induction w with
  | nil =>
    intro f t hf _
    rw [List.nil_append] at hf ⊢
    cases f with
    | zero => simp at hf
    | succ f' =>
      rw [splitOnStrGo_cons, if_pos]
      · have hdrop : ((':' :: ':' :: t).drop (s2l "::").length) = t := rfl
        rw [hdrop]
        simp only [List.length_cons] at hf
        rw [splitOnStrGo_fuel (s2l "::") f' t t.length (by omega) (le_refl _)]
      · constructor
        · have hform : ':' :: ':' :: t = s2l "::" ++ t := rfl
          rw [hform]
          exact isPrefixOf_self_append _ _
        · decide
  | cons c w' ih =>
    intro f t hf hw
    rw [List.cons_append] at hf ⊢
    cases f with
    | zero => simp at hf
    | succ f' =>
      rw [splitOnStrGo_cons, if_neg]
      · have hw' : containsSub (s2l "::") (w' ++ [':']) = false := by
          rw [List.cons_append, containsSub_cons] at hw
          exact (Bool.or_eq_false_iff.mp hw).2
        simp only [List.length_cons] at hf
        rw [ih f' t (by omega) hw']
      · intro hcond
        obtain ⟨t', ht'⟩ := List.isPrefixOf_iff_prefix.mp hcond.1
        have ht2 : ':' :: ':' :: t' = c :: (w' ++ ':' :: ':' :: t) := ht'
        injection ht2 with h1 h2
        subst h1
        cases w' with
        | nil =>
          rw [List.cons_append, List.nil_append, containsSub_cons] at hw
          have hpre : (s2l "::").isPrefixOf (':' :: [':']) = true := rfl
          rw [hpre, Bool.true_or] at hw
          exact Bool.noConfusion hw
        | cons d w'' =>
          rw [List.cons_append] at h2
          injection h2 with h3 _
          subst h3
          rw [List.cons_append, List.cons_append, containsSub_cons] at hw
          have hpre : (s2l "::").isPrefixOf
              (':' :: ':' :: (w'' ++ [':'])) = true := by
            have hform : ':' :: ':' :: (w'' ++ [':']) =
                s2l "::" ++ (w'' ++ [':']) := rfl
            rw [hform]
            exact isPrefixOf_self_append _ _
          rw [hpre, Bool.true_or] at hw
          exact Bool.noConfusion hw

theorem splitOnStr_sep (w t : Str)
    (hw : containsSub (s2l "::") (w ++ [':']) = false) :
    splitOnStr (s2l "::") (w ++ ':' :: ':' :: t) =
      w :: splitOnStr (s2l "::") t := by
  unfold splitOnStr
  exact splitOnStrGo_sep w _ t (le_refl _) hw

theorem splitOnStr_noMatch (pat : Str) (hp : pat ≠ []) (s : Str)
    (h : containsSub pat s = false) : splitOnStr pat s = [s] :=
  splitOnStrGo_noMatch pat hp s.length s (le_refl _) h

theorem trim_cons_space (v : Str) : trim (' ' :: v) = trim v := by
  unfold trim
  rw [List.dropWhile_cons, if_pos (by decide)]

theorem trim_eq_self (v : Str)
    (hh : (v.head?.all fun x => !rustIsWhitespace x) = true)
    (hl : (v.getLast?.all fun x => !rustIsWhitespace x) = true) :
    trim v = v := by
  unfold trim
  have h1 : v.dropWhile rustIsWhitespace = v := by
    apply dropWhile_head_false
    intro c hc
    rw [hc] at hh
    simpa using hh
  rw [h1]
  have h2 : v.reverse.dropWhile rustIsWhitespace = v.reverse := by
    apply dropWhile_head_false
    intro c hc
    rw [List.head?_reverse] at hc
    rw [hc] at hl
    simpa using hl
  rw [h2, List.reverse_reverse]

theorem propLine_eq (k v : Str) :
    propLine (k, v) = k ++ ':' :: ':' :: ' ' :: v := by
  show k ++ s2l ":: " ++ v = k ++ ':' :: ':' :: ' ' :: v
  rw [List.append_assoc]
  rfl

theorem propLine_contains (k v : Str) :
    containsSub (s2l "::") (propLine (k, v)) = true := by
  rw [propLine_eq]
  have hform : k ++ ':' :: ':' :: ' ' :: v = k ++ (s2l "::" ++ (' ' :: v)) := rfl
  rw [hform]
  exact containsSub_mid _ _ _ (by decide)

theorem propLine_no_newline (k v : Str) (hk : '\n' ∉ k) (hv : '\n' ∉ v) :
    '\n' ∉ propLine (k, v) := by
  rw [propLine_eq]
  intro hmem
  rcases List.mem_append.mp hmem with hm | hm
  · exact hk hm
  · simp only [List.mem_cons] at hm
    rcases hm with h | h | h | h
    · exact absurd h (by decide)
    · exact absurd h (by decide)
    · exact absurd h (by decide)
    · exact hv h

theorem stripCR_propLine (k v : Str)
    (hv : (v.getLast?.all fun x => decide (x ≠ '\r')) = true) :
    stripCR (propLine (k, v)) = propLine (k, v) := by
  unfold stripCR
  rw [if_neg]
  intro hlast
  rw [propLine_eq, List.getLast?_append] at hlast
  cases v with
  | nil =>
    have h' : ((':' :: ':' :: ' ' :: ([] : Str)).getLast?).or k.getLast? =
        some ' ' := rfl
    rw [h'] at hlast
    exact absurd (Option.some.inj hlast) (by decide)
  | cons w ws =>
    have h1 : (':' :: ':' :: ' ' :: w :: ws).getLast? = (w :: ws).getLast? := by
      rw [List.getLast?_cons_cons, List.getLast?_cons_cons,
        List.getLast?_cons_cons]
    rw [h1] at hlast
    cases hgl : (w :: ws).getLast? with
    | none => simp at hgl
    | some x =>
      rw [hgl] at hlast hv
      have hor : Option.or (some x) k.getLast? = some x := rfl
      rw [hor] at hlast
      have hx : x = '\r' := Option.some.inj hlast
      simp only [Option.all_some] at hv
      rw [hx] at hv
      simp at hv

theorem rustLines_propBlock (ls : List Str) (rest : Str)
    (h : ∀ l ∈ ls, '\n' ∉ l ∧ stripCR l = l) :
    rustLines ((ls.map (fun l => l ++ ['\n'])).flatten ++ '\n' :: rest) =
      ls ++ [] :: rustLines rest := by
  induction ls with
  | nil =>
    rw [List.map_nil, List.flatten_nil, List.nil_append]
    have h0 := rustLines_cons_line [] rest (by simp)
    rw [List.nil_append] at h0
    rw [h0]
    rfl
  | cons l ls ih =>
    rw [List.map_cons, List.flatten_cons, List.append_assoc, List.append_assoc,
      List.singleton_append]
    have hl := h l (by simp)
    rw [rustLines_cons_line l _ hl.1, hl.2,
      ih fun x hx => h x (List.mem_cons_of_mem _ hx)]
    rfl

theorem findIdx?_propsEnd (ls : List Str) (rest : List Str)
    (h : ∀ l ∈ ls, containsSub (s2l "::") l = true) :
    ∀ i, List.findIdx? (fun l => !containsSub (s2l "::") l)
      (ls ++ [] :: rest) i = some (i + ls.length) := by
  induction ls with
  | nil =>
    intro i
    rw [List.nil_append, List.findIdx?_cons]
    have hemp : containsSub (s2l "::") [] = false := rfl
    rw [hemp]
    simp
  | cons l ls ih =>
    intro i
    rw [List.cons_append, List.findIdx?_cons, h l (by simp)]
    simp only [Bool.not_true, Bool.false_eq_true, if_false]
    rw [ih (fun x hx => h x (List.mem_cons_of_mem _ hx)) (i + 1)]
    congr 1
    simp
    omega

theorem parsePropLine_eq (k v : Str)
    (hk : containsSub (s2l "::") (k ++ [':']) = false)
    (hv : containsSub (s2l "::") v = false) :
    parsePropLine (propLine (k, v)) = (k, trim v) := by
  unfold parsePropLine
  rw [propLine_eq]
  have hsp : splitOnStr (s2l "::") (k ++ ':' :: ':' :: ' ' :: v) =
      k :: splitOnStr (s2l "::") (' ' :: v) := splitOnStr_sep k (' ' :: v) hk
  rw [hsp]
  have hnm : splitOnStr (s2l "::") (' ' :: v) = [' ' :: v] := by
    apply splitOnStr_noMatch _ (by decide)
    rw [containsSub_cons]
    have h1 : (s2l "::").isPrefixOf (' ' :: v) = false := rfl
    rw [h1, hv]
    rfl
  rw [hnm]
  simp [trim_cons_space]

theorem all_ne_cr_of_not_ws (o : Option Char)
    (h : (o.all fun x => !rustIsWhitespace x) = true) :
    (o.all fun x => decide (x ≠ '\r')) = true := by
  cases o with
  | none => rfl
  | some x =>
    simp only [Option.all_some] at h ⊢
    simp only [Bool.not_eq_true'] at h
    rw [decide_eq_true_eq]
    intro hx
    rw [hx] at h
    exact absurd h (by decide)

theorem carriedAdded_brackets (ec : List Entry) (l : List Str)
    (h : carriedAdded ec = some l) :
    ∀ x ∈ l, (s2l "[[").isPrefixOf x = true := by
  unfold carriedAdded at h
  exact fun x hx => carriedCat_brackets _ _ _ l h x hx

theorem carriedModified_brackets (ec : List Entry) (l : List Str)
    (h : carriedModified ec = some l) :
    ∀ x ∈ l, (s2l "[[").isPrefixOf x = true := by
  unfold carriedModified at h
  exact fun x hx => carriedCat_brackets _ _ _ l h x hx

theorem carriedDeleted_brackets (ec : List Entry) (l : List Str)
    (h : carriedDeleted ec = some l) :
    ∀ x ∈ l, (s2l "[[").isPrefixOf x = true := by
  unfold carriedDeleted at h
  exact fun x hx => carriedCat_brackets _ _ _ l h x hx

theorem allChanges_some (ec : List Entry) (cs : ChangeSet) (ca cm cd : List Str)
    (hca : carriedAdded ec = some ca) (hcm : carriedModified ec = some cm)
    (hcd : carriedDeleted ec = some cd)
    (hcs : ¬(cs.added = [] ∧ cs.modified = [] ∧ cs.deleted = [])) :
    allChanges ec cs =
      some (catBlock (s2l "### Added") (sortDedup (ca ++ cs.added.map wrap)) ++
        catBlock (s2l "### Modified") (sortDedup (cm ++ cs.modified.map wrap)) ++
        catBlock (s2l "### Deleted") (sortDedup (cd ++ cs.deleted.map wrap))) := by
  unfold allChanges
  rw [if_neg hcs, hca, hcm, hcd]

/-! ### Claim theorems -/

/-- C4: the claim says the reconciler is total and never panics, in
particular when the `"# Changed Pages"` marker is absent and contents is
empty.  In fact, for empty contents the fallback section index 0 makes the
code call `Vec::insert` at position 1 on an empty vector, which panics
(`none` in the embedding), for every version and change-set. -/
theorem sync_empty_contents_panics (ver : Str) (cs : ChangeSet) :
    syncContents [] ver cs = none := by
  have hk : keptContents [] ver = [] := rfl
  unfold syncContents
  cases hac : allChanges (existingChanges [] ver) cs with
  | none => rfl
  | some block =>
    show insertRevLoop (changedPagesIndex [] + 1) (keptContents [] ver)
      ((fullVersionString ver, 1) :: block).reverse = none
    cases hrev : ((fullVersionString ver, 1) :: block).reverse with
    | nil => simp at hrev
    | cons y ys =>
      exact insertRevLoop_fail y ys _ _ (by rw [hk]; simp)

/-- C2 claims `reconcile` is idempotent.  It is not: on a page whose
version entry holds the Added record `[[Alice]]` and an empty
`### Modified` header, a sync with change-set `added = [Bob]` first merges
Alice and Bob, but the second sync drops `[[Alice]]`, because after the
first pass no `### Modified` or `### Deleted` header survives and the
Added category's carried-over scan then finds no section end.  The second
output differs from the first, so the code violates the claimed (and
clearly intended) idempotence. -/
theorem reconcile_not_idempotent :
    syncContents pageWithModifiedHeader (s2l "1.0.0") csBob =
      some [(s2l "# Changed Pages", 0), (s2l "## [[1.0.0]]", 1),
        (s2l "### Added", 2), (s2l "[[Alice]]", 3), (s2l "[[Bob]]", 3)] ∧
    syncContents [(s2l "# Changed Pages", 0), (s2l "## [[1.0.0]]", 1),
        (s2l "### Added", 2), (s2l "[[Alice]]", 3), (s2l "[[Bob]]", 3)]
        (s2l "1.0.0") csBob =
      some [(s2l "# Changed Pages", 0), (s2l "## [[1.0.0]]", 1),
        (s2l "### Added", 2), (s2l "[[Bob]]", 3)] ∧
    ([(s2l "# Changed Pages", 0), (s2l "## [[1.0.0]]", 1),
        (s2l "### Added", 2), (s2l "[[Bob]]", 3)] : List Entry) ≠
      [(s2l "# Changed Pages", 0), (s2l "## [[1.0.0]]", 1),
        (s2l "### Added", 2), (s2l "[[Alice]]", 3), (s2l "[[Bob]]", 3)] :=
  ⟨by decide, by decide, by decide⟩

/-- C9: reconciliation leaves the page's title and its whole properties
sequence unchanged; only the contents sequence is replaced. -/
theorem sync_preserves_title_and_properties (p : LogseqPage) (ver : Str)
    (cs : ChangeSet) (p' : LogseqPage) (h : syncPage p ver cs = some p') :
    p'.title = p.title ∧ p'.properties = p.properties := by
  unfold syncPage at h
  cases hc : syncContents p.contents ver cs with
  | none => rw [hc] at h; exact Option.noConfusion h
  | some c =>
    rw [hc] at h
    simp only [Option.map_some', Option.some.injEq] at h
    rw [← h]
    exact ⟨rfl, rfl⟩

/-- Witness for C9 at a concrete page, version and change-set. -/
theorem sync_preserves_title_and_properties_witness :
    ∃ p', syncPage ⟨s2l "1.0.0", [(s2l "tags", s2l "Version")],
        [(s2l "# Changed Pages", 0)]⟩ (s2l "1.0.0") ⟨[s2l "Alice"], [], []⟩ =
        some p' ∧
      p'.title = s2l "1.0.0" ∧ p'.properties = [(s2l "tags", s2l "Version")] :=
  ⟨⟨s2l "1.0.0", [(s2l "tags", s2l "Version")],
    [(s2l "# Changed Pages", 0), (s2l "## [[1.0.0]]", 1),
     (s2l "### Added", 2), (s2l "[[Alice]]", 3)]⟩, by decide,
   sync_preserves_title_and_properties
     ⟨s2l "1.0.0", [(s2l "tags", s2l "Version")], [(s2l "# Changed Pages", 0)]⟩
     (s2l "1.0.0") ⟨[s2l "Alice"], [], []⟩
     ⟨s2l "1.0.0", [(s2l "tags", s2l "Version")],
      [(s2l "# Changed Pages", 0), (s2l "## [[1.0.0]]", 1),
       (s2l "### Added", 2), (s2l "[[Alice]]", 3)]⟩ (by decide)⟩

/-- C6 counterexample: on the scenario-A input the reconciled page never
contains a line `"## v1.0.0"`.  The heading the code emits is
`"## [[<version>]]"` — the rendered semver string (no `v`) wrapped in
double brackets — whichever way the version string is rendered. -/
theorem scenarioA_counterexample :
    syncContents [(s2l "# Changed Pages", 0)] (s2l "1.0.0")
        ⟨[s2l "Alice"], [], []⟩ =
      some [(s2l "# Changed Pages", 0), (s2l "## [[1.0.0]]", 1),
        (s2l "### Added", 2), (s2l "[[Alice]]", 3)] ∧
    (∀ e ∈ [(s2l "# Changed Pages", 0), (s2l "## [[1.0.0]]", 1),
        (s2l "### Added", 2), (s2l "[[Alice]]", 3)],
      Prod.fst e ≠ s2l "## v1.0.0") ∧
    syncContents [(s2l "# Changed Pages", 0)] (s2l "v1.0.0")
        ⟨[s2l "Alice"], [], []⟩ =
      some [(s2l "# Changed Pages", 0), (s2l "## [[v1.0.0]]", 1),
        (s2l "### Added", 2), (s2l "[[Alice]]", 3)] ∧
    (∀ e ∈ [(s2l "# Changed Pages", 0), (s2l "## [[v1.0.0]]", 1),
        (s2l "### Added", 2), (s2l "[[Alice]]", 3)],
      Prod.fst e ≠ s2l "## v1.0.0") :=
  ⟨by decide, by decide, by decide, by decide⟩

/-- C6 amended: scenario A yields the heading `"## [[1.0.0]]"` at
indent 1, `"### Added"` at indent 2 and `"[[Alice]]"` at indent 3, and
nothing else — in particular no Modified or Deleted header. -/
theorem scenarioA_amended :
    syncContents [(s2l "# Changed Pages", 0)] (s2l "1.0.0")
        ⟨[s2l "Alice"], [], []⟩ =
      some [(s2l "# Changed Pages", 0), (s2l "## [[1.0.0]]", 1),
        (s2l "### Added", 2), (s2l "[[Alice]]", 3)] := by
  decide

/-- C5 counterexample: the page `pageTwoVersions` contains an entry for
version 1.0.0 inside the section, but another version's entry precedes
it; the reconciler does not locate it: the old entry's lines survive in
the output after the freshly inserted entry (the heading now occurs
twice) and its carried record `[[Alice]]` is absent from the new entry. -/
theorem locate_entry_counterexample :
    syncContents pageTwoVersions (s2l "1.0.0") csBob =
      some [(s2l "# Changed Pages", 0), (s2l "## [[1.0.0]]", 1),
        (s2l "### Added", 2), (s2l "[[Bob]]", 3), (s2l "## [[2.0.0]]", 1),
        (s2l "## [[1.0.0]]", 1), (s2l "### Added", 2), (s2l "[[Alice]]", 3)] ∧
    List.count ((s2l "## [[1.0.0]]", 1) : Entry)
      [(s2l "# Changed Pages", 0), (s2l "## [[1.0.0]]", 1),
        (s2l "### Added", 2), (s2l "[[Bob]]", 3), (s2l "## [[2.0.0]]", 1),
        (s2l "## [[1.0.0]]", 1), (s2l "### Added", 2), (s2l "[[Alice]]", 3)] = 2 ∧
    specAddedEntries pageTwoVersions (s2l "1.0.0") = [s2l "[[Alice]]"] :=
  ⟨by decide, by decide, by decide⟩

/-- C5 amended: the reconciler only examines the first indent-1 entry
starting with `"## [["` at or after the section marker.  When that entry
is not the current version's heading, nothing is collected or removed —
even when a matching entry exists later in the section — and the new
entry is built from the change-set alone and inserted after the marker,
leaving the whole original contents in place. -/
theorem locate_first_heading_only (c : List Entry) (ver : Str)
    (cs : ChangeSet) (out : List Entry) (idx j : Nat)
    (hidx : latestVersionIndex c (changedPagesIndex c) = some idx)
    (hne : (c.getD idx ([], 0)).1 ≠ fullVersionString ver)
    (hj : idx < j) (hjl : j < c.length)
    (hjv : c.getD j ([], 0) = (fullVersionString ver, 1))
    (hout : syncContents c ver cs = some out) :
    ∃ block, allChanges [] cs = some block ∧
      out = c.take (changedPagesIndex c + 1) ++
        (fullVersionString ver, 1) :: block ++
        c.drop (changedPagesIndex c + 1) := by
  have hdr : drainedRange c ver = none := by
    simp only [drainedRange, hidx]
    rw [if_neg hne]
  have hec : existingChanges c ver = [] := by
    simp [existingChanges, hdr]
  have hkept : keptContents c ver = c := by
    simp [keptContents, hdr]
  obtain ⟨block, hac, _, hout'⟩ := sync_decomp c ver cs out hout
  rw [hec] at hac
  rw [hkept] at hout'
  exact ⟨block, hac, hout'⟩

/-- Witness for the amended C5 at the two-version page. -/
theorem locate_first_heading_only_witness :
    ∃ block, allChanges [] csBob = some block ∧
      [(s2l "# Changed Pages", 0), (s2l "## [[1.0.0]]", 1),
        (s2l "### Added", 2), (s2l "[[Bob]]", 3), (s2l "## [[2.0.0]]", 1),
        (s2l "## [[1.0.0]]", 1), (s2l "### Added", 2), (s2l "[[Alice]]", 3)] =
        pageTwoVersions.take (changedPagesIndex pageTwoVersions + 1) ++
          (fullVersionString (s2l "1.0.0"), 1) :: block ++
          pageTwoVersions.drop (changedPagesIndex pageTwoVersions + 1) :=
  locate_first_heading_only pageTwoVersions (s2l "1.0.0") csBob _ 1 2
    (by decide) (by decide) (by decide) (by decide) (by decide) (by decide)

/-- C1 counterexample: carried-over entries do not survive when the
change-set is entirely empty.  On a page whose version entry holds the
Added record `[[Alice]]`, a sync with an all-empty change-set removes the
entry and re-inserts only the bare heading: the Added category of the
reconciled entry (extracted per the claim's own extent rule) is empty,
while the claimed sorted-dedup union of carried-over and new entries is
`[[Alice]]`. -/
theorem merge_union_counterexample :
    syncContents pageAddedOnly (s2l "1.0.0") ⟨[], [], []⟩ =
      some [(s2l "# Changed Pages", 0), (s2l "## [[1.0.0]]", 1)] ∧
    specAddedEntries pageAddedOnly (s2l "1.0.0") = [s2l "[[Alice]]"] ∧
    specAddedEntries [(s2l "# Changed Pages", 0), (s2l "## [[1.0.0]]", 1)]
      (s2l "1.0.0") = [] ∧
    sortDedup (specAddedEntries pageAddedOnly (s2l "1.0.0") ++
      List.map wrap []) = [s2l "[[Alice]]"] ∧
    ([] : List Str) ≠ [s2l "[[Alice]]"] :=
  ⟨by decide, by decide, by decide, by decide, by decide⟩

/-- C1 amended: when the change-set is entirely empty the merge is
skipped and only the bare heading is inserted (carried-over entries are
dropped).  Otherwise the inserted entry's categories, read back by the
specification's extent rule, are exactly the sorted deduplicated unions
of the code's carried-over sets (which themselves require a later section
end to exist for Added and Modified) and the wrapped change-set entries. -/
theorem merge_union_amended (c : List Entry) (ver : Str) (cs : ChangeSet)
    (out : List Entry) (ca cm cd : List Str)
    (hca : carriedAdded (existingChanges c ver) = some ca)
    (hcm : carriedModified (existingChanges c ver) = some cm)
    (hcd : carriedDeleted (existingChanges c ver) = some cd)
    (hout : syncContents c ver cs = some out) :
    (cs.added = [] ∧ cs.modified = [] ∧ cs.deleted = [] →
      out = (keptContents c ver).take (changedPagesIndex c + 1) ++
        (fullVersionString ver, 1) ::
        (keptContents c ver).drop (changedPagesIndex c + 1)) ∧
    (¬(cs.added = [] ∧ cs.modified = [] ∧ cs.deleted = []) →
      ∃ block,
        out = (keptContents c ver).take (changedPagesIndex c + 1) ++
          (fullVersionString ver, 1) :: block ++
          (keptContents c ver).drop (changedPagesIndex c + 1) ∧
        catLeaves block (s2l "### Added")
          [s2l "### Modified", s2l "### Deleted"] =
          sortDedup (ca ++ cs.added.map wrap) ∧
        catLeaves block (s2l "### Modified") [s2l "### Deleted"] =
          sortDedup (cm ++ cs.modified.map wrap) ∧
        catLeaves block (s2l "### Deleted") [] =
          sortDedup (cd ++ cs.deleted.map wrap)) := by
  obtain ⟨block, hac, hle, hout'⟩ := sync_decomp c ver cs out hout
  constructor
  · intro hcs
    have he : allChanges (existingChanges c ver) cs = some [] := by
      unfold allChanges
      rw [if_pos hcs]
    rw [he] at hac
    simp only [Option.some.injEq] at hac
    rw [← hac] at hout'
    simpa using hout'
  · intro hcs
    have he := allChanges_some (existingChanges c ver) cs ca cm cd hca hcm hcd hcs
    rw [he] at hac
    simp only [Option.some.injEq] at hac
    refine ⟨block, hout', ?_, ?_, ?_⟩
    · rw [← hac]
      exact catLeaves_added _ _ _
        (sortDedup_merge_brackets ca _ (carriedAdded_brackets _ ca hca))
    · rw [← hac]
      exact catLeaves_modified _ _ _
        (sortDedup_merge_brackets cm _ (carriedModified_brackets _ cm hcm))
    · rw [← hac]
      exact catLeaves_deleted _ _ _
        (sortDedup_merge_brackets cd _ (carriedDeleted_brackets _ cd hcd))

/-- Witness for the amended C1 at a concrete page with a carried-over
Added record and a non-empty change-set. -/
theorem merge_union_amended_witness :
    ∃ block,
      [(s2l "# Changed Pages", 0), (s2l "## [[1.0.0]]", 1),
        (s2l "### Added", 2), (s2l "[[Alice]]", 3), (s2l "[[Bob]]", 3)] =
        (keptContents pageWithModifiedHeader (s2l "1.0.0")).take
          (changedPagesIndex pageWithModifiedHeader + 1) ++
        (fullVersionString (s2l "1.0.0"), 1) :: block ++
        (keptContents pageWithModifiedHeader (s2l "1.0.0")).drop
          (changedPagesIndex pageWithModifiedHeader + 1) ∧
      catLeaves block (s2l "### Added")
        [s2l "### Modified", s2l "### Deleted"] =
        sortDedup ([s2l "[[Alice]]"] ++ csBob.added.map wrap) ∧
      catLeaves block (s2l "### Modified") [s2l "### Deleted"] =
        sortDedup ([] ++ csBob.modified.map wrap) ∧
      catLeaves block (s2l "### Deleted") [] =
        sortDedup ([] ++ csBob.deleted.map wrap) :=
  (merge_union_amended pageWithModifiedHeader (s2l "1.0.0") csBob
    [(s2l "# Changed Pages", 0), (s2l "## [[1.0.0]]", 1),
      (s2l "### Added", 2), (s2l "[[Alice]]", 3), (s2l "[[Bob]]", 3)]
    [s2l "[[Alice]]"] [] []
    (by decide) (by decide) (by decide) (by decide)).2 (by decide)

/-- C3: the reconciled contents decompose as the kept entries up to the
insertion point, the freshly built entry, and the remaining kept entries;
the kept entries are exactly the original contents with the removed
version entry's extent (when one was matched) deleted, in their original
order and byte-identical.  Nothing else is altered. -/
theorem frame_outside_extent (c : List Entry) (ver : Str) (cs : ChangeSet)
    (out : List Entry) (h : syncContents c ver cs = some out) :
    ∃ block,
      out = (keptContents c ver).take (changedPagesIndex c + 1) ++
        (fullVersionString ver, 1) :: block ++
        (keptContents c ver).drop (changedPagesIndex c + 1) ∧
      (∀ i n, drainedRange c ver = some (i, n) →
        keptContents c ver = c.take i ++ c.drop n) ∧
      (drainedRange c ver = none → keptContents c ver = c) := by
  obtain ⟨block, _, _, hout⟩ := sync_decomp c ver cs out h
  refine ⟨block, hout, ?_, ?_⟩
  · intro i n hd
    simp [keptContents, hd]
  · intro hd
    simp [keptContents, hd]

/-- Witness for C3 at the page with a matched version entry. -/
theorem frame_outside_extent_witness :
    ∃ block,
      [(s2l "# Changed Pages", 0), (s2l "## [[1.0.0]]", 1),
        (s2l "### Added", 2), (s2l "[[Alice]]", 3), (s2l "[[Bob]]", 3)] =
        (keptContents pageWithModifiedHeader (s2l "1.0.0")).take
          (changedPagesIndex pageWithModifiedHeader + 1) ++
        (fullVersionString (s2l "1.0.0"), 1) :: block ++
        (keptContents pageWithModifiedHeader (s2l "1.0.0")).drop
          (changedPagesIndex pageWithModifiedHeader + 1) ∧
      (∀ i n, drainedRange pageWithModifiedHeader (s2l "1.0.0") = some (i, n) →
        keptContents pageWithModifiedHeader (s2l "1.0.0") =
          pageWithModifiedHeader.take i ++ pageWithModifiedHeader.drop n) ∧
      (drainedRange pageWithModifiedHeader (s2l "1.0.0") = none →
        keptContents pageWithModifiedHeader (s2l "1.0.0") =
          pageWithModifiedHeader) :=
  frame_outside_extent pageWithModifiedHeader (s2l "1.0.0") csBob _ (by decide)

/-- C7 counterexample: `toOutlineText` applied to the single entry with
content `"x "` produces `"- x \n"`, which is an output of the renderer,
yet parsing and re-rendering yields `"- x\n"` — the trailing space is
lost to `trim` — so the round trip is not the identity on all renderer
outputs. -/
theorem roundtrip_counterexample :
    toOutlineText (fromOutlineText (toOutlineText [(s2l "x ", 0)])) ≠
      toOutlineText [(s2l "x ", 0)] ∧
    toOutlineText [(s2l "x ", 0)] = s2l "- x \n" ∧
    toOutlineText (fromOutlineText (toOutlineText [(s2l "x ", 0)])) =
      s2l "- x\n" :=
  ⟨by decide, by decide, by decide⟩

/-- C7 amended: the round trip `toOutlineText ∘ fromOutlineText` is the
identity on every text rendered from contents whose entries are stable:
no newline in the content, no trailing whitespace, and indent below 64
(so the `u8` space counter does not wrap); empty contents render as a
bare newline and round-trip at any indent. -/
theorem roundtrip_amended (cs : List Entry) (h : ∀ e ∈ cs, stableEntry e) :
    toOutlineText (fromOutlineText (toOutlineText cs)) = toOutlineText cs := by
  induction cs with
  | nil => rfl
  | cons e l ih =>
    have hse := h e (by simp)
    have hl := fun x hx => h x (List.mem_cons_of_mem _ hx)
    rw [toOutlineText_cons]
    unfold fromOutlineText
    rw [rustLines_cons_line _ _ (renderEntry_no_newline e hse.1),
      stripCR_renderEntry e hse.2.1, List.map_cons, toOutlineText_cons]
    have hih : toOutlineText
        ((rustLines (toOutlineText l)).map parsePlainLine) = toOutlineText l :=
      ih hl
    rw [hih, parse_render e hse]
    by_cases h0 : e.1 = []
    · rw [if_pos h0]
      have h1 : renderEntry ([], 0) = [] := rfl
      have h2 : renderEntry e = [] := by
        unfold renderEntry
        rw [if_pos h0]
      rw [h1, h2]
    · rw [if_neg h0]

/-- Witness for the amended C7 at a concrete stable contents list. -/
theorem roundtrip_amended_witness :
    (∀ e ∈ [(s2l "# Summary", 0), (s2l "", 0), (s2l "# Changed Pages", 0),
        (s2l "[[Alice]]", 3)], stableEntry e) ∧
    toOutlineText (fromOutlineText (toOutlineText
      [(s2l "# Summary", 0), (s2l "", 0), (s2l "# Changed Pages", 0),
        (s2l "[[Alice]]", 3)])) =
      toOutlineText [(s2l "# Summary", 0), (s2l "", 0),
        (s2l "# Changed Pages", 0), (s2l "[[Alice]]", 3)] :=
  ⟨by decide, roundtrip_amended _ (by decide)⟩

/-- C8 counterexample: on the line `"a - b"` the parser yields content
`"a b"` — the `"- "` is stripped even though it is not a leading bullet
marker (the line does not start with `"- "`), contradicting the claim
that the marker is stripped only when leading. -/
theorem parse_line_counterexample :
    parsePlainLine (s2l "a - b") = (s2l "a b", 0) ∧
    (s2l "- ").isPrefixOf (s2l "a - b") = false ∧
    s2l "a b" ≠ s2l "a - b" :=
  ⟨by decide, by decide, by decide⟩

/-- C8 amended: for every line the parser assigns
`indentLevel = (leading spaces mod 256) / 4` (the space count is cast to
`u8`), and the content is the trimmed line with the first occurrence of
`"- "` anywhere — not only a leading one — removed at most once: either
the trimmed line has no `"- "` and is kept whole, or it splits as
`p ++ "- " ++ q` with no `"- "` inside `p` and the content is `p ++ q`.
The empty line parses to an empty entry at indent 0. -/
theorem parse_line_amended (line : Str) :
    (parsePlainLine line).2 =
      (line.takeWhile fun c => decide (c = ' ')).length % 256 / 4 ∧
    (parsePlainLine line).1 = replaceFirst (s2l "- ") (trim line) ∧
    ((containsSub (s2l "- ") (trim line) = false ∧
        replaceFirst (s2l "- ") (trim line) = trim line) ∨
      ∃ p q, trim line = p ++ s2l "- " ++ q ∧
        replaceFirst (s2l "- ") (trim line) = p ++ q ∧
        containsSub (s2l "- ") p = false) ∧
    parsePlainLine [] = ([], 0) :=
  ⟨rfl, rfl, replaceFirst_split (s2l "- ") (by decide) (trim line), rfl⟩

/-- C10 counterexample: writing the single property `("k", "x ")` — whose
value contains no `"::"` — and reading it back yields `("k", "x")`: the
trailing space of the value is lost to `trim`, so the properties sequence
is not restored exactly even though no value contains `"::"`. -/
theorem props_roundtrip_counterexample :
    readProps (rustLines (write_page
      ⟨s2l "t", [(s2l "k", s2l "x ")], []⟩)) = [(s2l "k", s2l "x")] ∧
    containsSub (s2l "::") (s2l "x ") = false ∧
    [(s2l "k", s2l "x")] ≠ [(s2l "k", s2l "x ")] :=
  ⟨by decide, by decide, by decide⟩

/-- C10 amended: write-then-read restores the properties exactly when
every key contains no newline and `key ++ ":"` contains no `"::"` (so the
key neither contains `"::"` nor ends with a colon), and every value
contains no newline, no `"::"`, and no leading or trailing whitespace.
When a value does contain `"::"` (first part `v1`, rest `v2`), read-back
keeps only the whitespace-trimmed portion of the value before its first
`"::"`. -/
theorem props_roundtrip_amended :
    (∀ (title : Str) (props : List (Str × Str)) (contents : List Entry),
      (∀ kv ∈ props, cleanKey kv.1 ∧ stableValue kv.2) →
      readProps (rustLines (write_page ⟨title, props, contents⟩)) = props) ∧
    (∀ (title k v1 v2 : Str) (contents : List Entry),
      cleanKey k → '\n' ∉ v1 →
      containsSub (s2l "::") (v1 ++ [':']) = false → '\n' ∉ v2 →
      (v2.getLast?.all fun x => decide (x ≠ '\r')) = true →
      readProps (rustLines (write_page
        ⟨title, [(k, v1 ++ s2l "::" ++ v2)], contents⟩)) = [(k, trim v1)]) := by
  constructor
  · intro title props contents hok
    have hcond : ∀ l ∈ props.map propLine, '\n' ∉ l ∧ stripCR l = l := by
      intro l hlmem
      obtain ⟨kv, hkv, rfl⟩ := List.mem_map.mp hlmem
      obtain ⟨hk, hv⟩ := hok kv hkv
      exact ⟨propLine_no_newline kv.1 kv.2 hk.1 hv.1,
        stripCR_propLine kv.1 kv.2 (all_ne_cr_of_not_ws _ hv.2.2.2)⟩
    have hmm : ((props.map propLine).map fun l => l ++ ['\n']) =
        props.map fun kv => propLine kv ++ ['\n'] := by
      rw [List.map_map]
      rfl
    have hfile : rustLines (write_page ⟨title, props, contents⟩) =
        props.map propLine ++ [] :: rustLines (toOutlineText contents) := by
      show rustLines ((props.map fun kv => propLine kv ++ ['\n']).flatten ++
        '\n' :: toOutlineText contents) = _
      rw [← hmm]
      exact rustLines_propBlock (props.map propLine) _ hcond
    unfold readProps
    rw [hfile]
    have hpe : propertiesEnd (props.map propLine ++
        [] :: rustLines (toOutlineText contents)) = props.length := by
      unfold propertiesEnd
      rw [findIdx?_propsEnd (props.map propLine) _ ?_ 0]
      · simp
      · intro l hl
        obtain ⟨kv, _, rfl⟩ := List.mem_map.mp hl
        exact propLine_contains kv.1 kv.2
    rw [hpe, List.take_left' (by simp), List.map_map]
    have hpt : ∀ kv ∈ props, (parsePropLine ∘ propLine) kv = id kv := by
      intro kv hkv
      obtain ⟨hk, hv⟩ := hok kv hkv
      show parsePropLine (propLine kv) = kv
      rw [show propLine kv = propLine (kv.1, kv.2) from rfl,
        parsePropLine_eq kv.1 kv.2 hk.2 hv.2.1,
        trim_eq_self kv.2 hv.2.2.1 hv.2.2.2]
    rw [List.map_congr_left hpt, List.map_id]
  · intro title k v1 v2 contents hk hv1n hv1 hv2n hv2r
    have hnl : '\n' ∉ v1 ++ s2l "::" ++ v2 := by
      intro hmem
      rcases List.mem_append.mp hmem with hm | hm
      · rcases List.mem_append.mp hm with hm' | hm'
        · exact hv1n hm'
        · revert hm'
          decide
      · exact hv2n hm
    have hcr : ((v1 ++ s2l "::" ++ v2).getLast?.all
        fun x => decide (x ≠ '\r')) = true := by
      cases v2 with
      | nil =>
        have hgl : (v1 ++ s2l "::" ++ ([] : Str)).getLast? = some ':' := by
          rw [List.append_nil, List.getLast?_append]
          rfl
        rw [hgl]
        rfl
      | cons w ws =>
        have hgl : (v1 ++ s2l "::" ++ (w :: ws)).getLast? =
            (w :: ws).getLast? := by
          rw [List.getLast?_append]
          cases hgl2 : (w :: ws).getLast? with
          | none => simp at hgl2
          | some x => rfl
        rw [hgl]
        exact hv2r
    have hcond : ∀ l ∈ [propLine (k, v1 ++ s2l "::" ++ v2)],
        '\n' ∉ l ∧ stripCR l = l := by
      intro l hl
      rw [List.mem_singleton] at hl
      subst hl
      exact ⟨propLine_no_newline _ _ hk.1 hnl, stripCR_propLine _ _ hcr⟩
    have hfile : rustLines (write_page
        ⟨title, [(k, v1 ++ s2l "::" ++ v2)], contents⟩) =
        [propLine (k, v1 ++ s2l "::" ++ v2)] ++
          [] :: rustLines (toOutlineText contents) := by
      show rustLines (([(k, v1 ++ s2l "::" ++ v2)].map
        fun kv => propLine kv ++ ['\n']).flatten ++
        '\n' :: toOutlineText contents) = _
      have hmm : (([propLine (k, v1 ++ s2l "::" ++ v2)]).map
          fun l => l ++ ['\n']) =
          ([(k, v1 ++ s2l "::" ++ v2)].map fun kv => propLine kv ++ ['\n']) := by
        rfl
      rw [← hmm]
      exact rustLines_propBlock _ _ hcond
    unfold readProps
    rw [hfile]
    have hpe : propertiesEnd ([propLine (k, v1 ++ s2l "::" ++ v2)] ++
        [] :: rustLines (toOutlineText contents)) = 1 := by
      unfold propertiesEnd
      rw [findIdx?_propsEnd [propLine (k, v1 ++ s2l "::" ++ v2)] _ ?_ 0]
      · rfl
      · intro l hl
        rw [List.mem_singleton] at hl
        subst hl
        exact propLine_contains _ _
    rw [hpe, List.take_left' (by simp), List.map_singleton]
    have hparse : parsePropLine (propLine (k, v1 ++ s2l "::" ++ v2)) =
        (k, trim v1) := by
      unfold parsePropLine
      rw [propLine_eq]
      have hsp1 : splitOnStr (s2l "::")
          (k ++ ':' :: ':' :: ' ' :: (v1 ++ s2l "::" ++ v2)) =
          k :: splitOnStr (s2l "::") (' ' :: (v1 ++ s2l "::" ++ v2)) :=
        splitOnStr_sep k _ hk.2
      rw [hsp1]
      have hform : ' ' :: (v1 ++ s2l "::" ++ v2) =
          (' ' :: v1) ++ ':' :: ':' :: v2 := by
        rw [List.append_assoc]
        rfl
      have hw2 : containsSub (s2l "::") ((' ' :: v1) ++ [':']) = false := by
        rw [List.cons_append, containsSub_cons]
        have hpre : (s2l "::").isPrefixOf (' ' :: (v1 ++ [':'])) = false := rfl
        rw [hpre, hv1]
        rfl
      have hsp2 : splitOnStr (s2l "::") ((' ' :: v1) ++ ':' :: ':' :: v2) =
          (' ' :: v1) :: splitOnStr (s2l "::") v2 :=
        splitOnStr_sep (' ' :: v1) v2 hw2
      rw [hform, hsp2]
      simp [trim_cons_space]
    rw [hparse]

/-- Witness for the amended C10 at a concrete clean property list and at
a value containing `"::"`. -/
theorem props_roundtrip_amended_witness :
    readProps (rustLines (write_page ⟨s2l "1.0.0",
      [(s2l "tags", s2l "Version"), (s2l "released-date", s2l "2024-01-01")],
      [(s2l "# Summary", 0)]⟩)) =
      [(s2l "tags", s2l "Version"), (s2l "released-date", s2l "2024-01-01")] ∧
    readProps (rustLines (write_page ⟨s2l "t",
      [(s2l "k", s2l "a " ++ s2l "::" ++ s2l "b")], []⟩)) =
      [(s2l "k", trim (s2l "a "))] :=
  ⟨props_roundtrip_amended.1 (s2l "1.0.0")
      [(s2l "tags", s2l "Version"), (s2l "released-date", s2l "2024-01-01")]
      [(s2l "# Summary", 0)] (by decide),
   props_roundtrip_amended.2 (s2l "t") (s2l "k") (s2l "a ") (s2l "b") []
      (by decide) (by decide) (by decide) (by decide) (by decide)⟩

end Svlmd
